import Mathlib

/-!
# Low-discrepancy sequences (`include/utils/discrepancy.hpp`)

Shallow embedding of `pagmo::van_der_corput`, `pagmo::halton` and
`pagmo::sample_from_simplex`.

Modelling conventions:

* `double` values are exact rationals (`ℚ`): the statements on them are about the
  arithmetic the code performs, without rounding.  The definitions whose name ends
  in `f64` round every operation to binary64, and `binary64` adds NaN and the
  infinities; they serve the statements that depend on the doubles themselves.
* `unsigned int` values are natural numbers; the increment of a counter is
  taken modulo `2 ^ 32`.
* A thrown exception is an `Except.error`; an execution with no defined result
  (division by zero, a loop that never exits) is `none`.
-/

namespace pagmo

/-- Width-32 modulus of `unsigned int`. -/
def UINT_MOD : Nat := 2 ^ 32

/-- Exceptions that can leave the functions of this header. -/
inductive Error where
  /-- Is `std::invalid_argument`, raised through `pagmo_throw`. -/
  | invalid_argument
  /-- Is any other exception raised by a collaborator outside this header. -/
  | unspecified
  deriving DecidableEq, Repr

/-- State of a `van_der_corput` object: the two private members. -/
structure van_der_corput where
  /-- Base of the sequence. -/
  m_base : Nat
  /-- Element of the sequence to compute. -/
  m_counter : Nat
  deriving DecidableEq, Repr

/-- Constructor `van_der_corput(unsigned int b, unsigned int n)`: throws
`std::invalid_argument` when `b < 2`, otherwise stores both arguments. -/
def van_der_corput.ctor (b n : Nat) : Except Error van_der_corput :=
  if b < 2 then Except.error Error.invalid_argument
  else Except.ok { m_base := b, m_counter := n }

/-- Constructor call with the default argument `n = 0u`. -/
def van_der_corput.ctor_default (b : Nat) : Except Error van_der_corput :=
  van_der_corput.ctor b 0

/-- Local variables of `van_der_corput::operator()`. -/
structure vdc_locals where
  /-- Accumulated return value. -/
  retval : ℚ
  /-- Weight of the current digit. -/
  f : ℚ
  /-- Remaining part of the counter. -/
  i : Nat
  deriving DecidableEq

/-- One execution of the body of the `while (i > 0)` loop. -/
def vdc_body (m_base : Nat) (l : vdc_locals) : vdc_locals :=
  { retval := l.retval + l.f * ((l.i % m_base : Nat) : ℚ)
    i := l.i / m_base
    f := l.f / (m_base : ℚ) }

/-- The loop `while (i > 0) { ... }`, run for at most `fuel` iterations;
`none` when the loop has not exited by then. -/
def vdc_while (m_base : Nat) : Nat → vdc_locals → Option vdc_locals
  | 0, l => if l.i > 0 then none else some l
  | fuel + 1, l => if l.i > 0 then vdc_while m_base fuel (vdc_body m_base l) else some l

/-- Method `van_der_corput::operator()`: the value returned and the state left behind.
A zero base divides by zero and has no defined result.  The loop gets
`m_counter` iterations of fuel, which is more than it uses whenever `m_base ≥ 2`;
with `m_base = 1` it never exits. -/
def van_der_corput.call (s : van_der_corput) : Option (ℚ × van_der_corput) :=
  if s.m_base = 0 then none
  else
    match vdc_while s.m_base s.m_counter
        { retval := 0, f := 1 / (s.m_base : ℚ), i := s.m_counter } with
    | none => none
    | some l => some (l.retval, { s with m_counter := (s.m_counter + 1) % UINT_MOD })

/-- Digit-reversal sum over a list of digits, least significant first:
`radical_of_digits b [d₀, d₁, …] = d₀ / b + d₁ / b² + …`, in Horner form. -/
def radical_of_digits (b : Nat) : List Nat → ℚ
  | [] => 0
  | d :: ds => ((d : ℚ) + radical_of_digits b ds) / (b : ℚ)

/-- Radical inverse as the documentation of the class writes it:
`g_n = ∑_{i < L} d_i(n) · b^(-i-1)` with `d_i(n)` the base-`b` digits of `n`. -/
def radical_inverse (b n : Nat) : ℚ :=
  ∑ i in Finset.range (Nat.digits b n).length,
    (((Nat.digits b n).getD i 0 : Nat) : ℚ) * (b : ℚ) ^ (-(i : ℤ) - 1)

/-- Number whose `k` base-`b` digits are the `k` lowest digits of `n` in reverse order;
the radical inverse of `n < b ^ k` is `digit_reversal b k n / b ^ k`. -/
def digit_reversal (b : Nat) : Nat → Nat → Nat
  | 0, _ => 0
  | k + 1, n => (n % b) * b ^ k + digit_reversal b k (n / b)

/-- Running `operator()` `k` times in a row: the values returned, in order, and
the state left behind. -/
def van_der_corput.draws : Nat → van_der_corput → Option (List ℚ × van_der_corput)
  | 0, s => some ([], s)
  | k + 1, s =>
    match s.call with
    | none => none
    | some (x, s1) =>
      match van_der_corput.draws k s1 with
      | none => none
      | some (xs, s2) => some (x :: xs, s2)

/-! ### `sample_from_simplex` -/

/-- Lambda passed to `std::any_of`: `item < 0 || item > 1`. -/
def out_of_unit (item : ℚ) : Bool :=
  decide (item < 0) || decide (item > 1)

/-- Loop body `in[i] = in[i+1] - in[i]`, an in-place write. -/
def simplex_body (v : List ℚ) (i : Nat) : List ℚ :=
  v.set i (v.getD (i + 1) 0 - v.getD i 0)

/-- First `n` iterations of `for (i = 0u; i < in.size()-1u; ++i)`, the index running
upwards from zero.  The index is a natural number: vectors are taken to have
fewer than `2 ^ 32` elements. -/
def simplex_for (v : List ℚ) (n : Nat) : List ℚ :=
  (List.range n).foldl simplex_body v

/-- Vector after `std::sort`, `insert(begin, 0.0)` and `push_back(1.0)`.
The sort is ascending; over a linear order its result does not depend on the
algorithm used. -/
def simplex_extended (inp : List ℚ) : List ℚ :=
  (0 :: inp.insertionSort (· ≤ ·)) ++ [1]

/-- Function `sample_from_simplex(std::vector<double> in)`. -/
def sample_from_simplex (inp : List ℚ) : Except Error (List ℚ) :=
  if inp.any out_of_unit then Except.error Error.invalid_argument
  else if inp.length > 0 then
    let ext := simplex_extended inp
    Except.ok (simplex_for ext (ext.length - 1)).dropLast
  else Except.error Error.invalid_argument

/-- Consecutive gaps `[e₁ - e₀, e₂ - e₁, …]` of a sequence. -/
def consecutive_gaps (e : List ℚ) : List ℚ :=
  List.zipWith (fun a b => b - a) e e.tail

/-! ### `halton` -/

/-- Modelled from the spec: `detail::prime` of `detail/prime_numbers.hpp`, which is
not part of this header.  For a 1-indexed `k ≥ 1` it returns the `k`-th prime
number; this function is that sequence 0-indexed (`nth_prime 0 = 2`), each
entry being the least prime above the previous one. -/
def nth_prime : Nat → Nat
  | 0 => 2
  | k + 1 => Nat.find (Nat.exists_infinite_primes (nth_prime k + 1))

/-- Modelled from the spec: the prime source `detail::prime(k)`, the `k`-th prime
number for a 1-indexed `k ≥ 1`.  The spec gives it no value at `k = 0`, which
the code never asks for. -/
def detail.prime (k : Nat) : Except Error Nat :=
  if k = 0 then Except.error Error.unspecified else Except.ok (nth_prime (k - 1))

/-- State of a `halton` object: the three private members. -/
structure halton where
  /-- Dimension of the sequence. -/
  m_dim : Nat
  /-- Element of the sequence to compute. -/
  m_counter : Nat
  /-- Sequences used for each dimension. -/
  m_vdc : List van_der_corput
  deriving DecidableEq, Repr

/-- Constructor loop `m_vdc.push_back(van_der_corput(detail::prime(i+1)))` over the
indices listed.  The prime source is a parameter and may throw, as may the
constructor of the sub-generator. -/
def halton.ctor_for (prime : Nat → Except Error Nat) :
    List Nat → List van_der_corput → Except Error (List van_der_corput)
  | [], m_vdc => Except.ok m_vdc
  | i :: rest, m_vdc =>
    match prime (i + 1) with
    | Except.error e => Except.error e
    | Except.ok p =>
      match van_der_corput.ctor_default p with
      | Except.error e => Except.error e
      | Except.ok g => halton.ctor_for prime rest (m_vdc ++ [g])

/-- Constructor `halton(unsigned int dim, unsigned int n)`. -/
def halton.ctor (prime : Nat → Except Error Nat) (dim n : Nat) : Except Error halton :=
  match halton.ctor_for prime (List.range dim) [] with
  | Except.error e => Except.error e
  | Except.ok m_vdc => Except.ok { m_dim := dim, m_counter := n, m_vdc := m_vdc }

/-- Draw loop `retval.push_back(m_vdc[i]())` over the indices listed; an index
outside `m_vdc` has no defined result. -/
def halton.call_for :
    List Nat → List ℚ × List van_der_corput → Option (List ℚ × List van_der_corput)
  | [], st => some st
  | i :: rest, (retval, m_vdc) =>
    match m_vdc[i]? with
    | none => none
    | some g =>
      match g.call with
      | none => none
      | some (x, g1) => halton.call_for rest (retval ++ [x], m_vdc.set i g1)

/-- Method `halton::operator()`: the point returned and the state left behind. -/
def halton.call (h : halton) : Option (List ℚ × halton) :=
  match halton.call_for (List.range h.m_dim) ([], h.m_vdc) with
  | none => none
  | some (retval, m_vdc) =>
    some (retval, { h with m_counter := (h.m_counter + 1) % UINT_MOD, m_vdc := m_vdc })

/-- Running `operator()` `k` times in a row: the points returned, in order, and
the state left behind. -/
def halton.draws : Nat → halton → Option (List (List ℚ) × halton)
  | 0, h => some ([], h)
  | k + 1, h =>
    match h.call with
    | none => none
    | some (x, h1) =>
      match halton.draws k h1 with
      | none => none
      | some (xs, h2) => some (x :: xs, h2)

/-! ### Binary64 arithmetic

The functions above compute in exact rationals.  The ones below round every
operation as IEEE 754 binary64 does (round to nearest, ties to even), each
operation once, and are used where a statement is about the digits of the
doubles returned. -/

/-- Nearest integer, a tie going to the even one. -/
def round_half_even (q : ℚ) : ℤ :=
  if q - (⌊q⌋ : ℚ) < 1 / 2 then ⌊q⌋
  else if 1 / 2 < q - (⌊q⌋ : ℚ) then ⌊q⌋ + 1
  else if ⌊q⌋ % 2 = 0 then ⌊q⌋
  else ⌊q⌋ + 1

/-- Doubling of the significand `m` while it is below `2 ^ 52`, the unit `u` being halved
so that `m * u` stays the same; at most `fuel` times. -/
def scale_up : Nat → ℚ → ℚ → ℚ × ℚ
  | 0, m, u => (m, u)
  | fuel + 1, m, u => if m < 2 ^ 52 then scale_up fuel (2 * m) (u / 2) else (m, u)

/-- Halving of the significand `m` while it is `2 ^ 53` or more, the unit `u` being
doubled; at most `fuel` times. -/
def scale_down : Nat → ℚ → ℚ → ℚ × ℚ
  | 0, m, u => (m, u)
  | fuel + 1, m, u => if 2 ^ 53 ≤ m then scale_down fuel (m / 2) (2 * u) else (m, u)

/-- Rounding of a positive rational to binary64: the number is written `m * u` with `u` a
power of two and `2 ^ 52 ≤ m < 2 ^ 53`, and `m` is rounded to an integer.  The unit
is never taken below `2 ^ (-1074)`, the spacing of the subnormal numbers; numbers
of `2 ^ 1024` and more, which round to infinity, are outside the model. -/
def round_pos (x : ℚ) : ℚ :=
  let up := scale_up 1074 x 1
  let dn := scale_down 971 up.1 up.2
  (round_half_even dn.1 : ℚ) * dn.2

/-- Rounding of a rational to the nearest binary64 number, ties to even. -/
def fl (x : ℚ) : ℚ :=
  if x < 0 then -round_pos (-x) else round_pos x

/-- One execution of the body of the `while (i > 0)` loop in binary64: the product, the
sum and the quotient are each rounded, the product and the sum separately (no fused
multiply-add); `i % m_base` and `m_base` convert to `double` exactly. -/
def vdc_body_f64 (m_base : Nat) (l : vdc_locals) : vdc_locals :=
  { retval := fl (l.retval + fl (l.f * ((l.i % m_base : Nat) : ℚ)))
    i := l.i / m_base
    f := fl (l.f / (m_base : ℚ)) }

/-- The loop `while (i > 0) { ... }` in binary64, run for at most `fuel` iterations. -/
def vdc_while_f64 (m_base : Nat) : Nat → vdc_locals → Option vdc_locals
  | 0, l => if l.i > 0 then none else some l
  | fuel + 1, l =>
    if l.i > 0 then vdc_while_f64 m_base fuel (vdc_body_f64 m_base l) else some l

/-- Method `van_der_corput::operator()` in binary64: as `van_der_corput.call`, with
`1.0 / m_base` and the loop body rounded. -/
def van_der_corput.call_f64 (s : van_der_corput) : Option (ℚ × van_der_corput) :=
  if s.m_base = 0 then none
  else
    match vdc_while_f64 s.m_base s.m_counter
        { retval := 0, f := fl (1 / (s.m_base : ℚ)), i := s.m_counter } with
    | none => none
    | some l => some (l.retval, { s with m_counter := (s.m_counter + 1) % UINT_MOD })

/-- Running `operator()` `k` times in a row in binary64. -/
def van_der_corput.draws_f64 : Nat → van_der_corput → Option (List ℚ × van_der_corput)
  | 0, s => some ([], s)
  | k + 1, s =>
    match s.call_f64 with
    | none => none
    | some (x, s1) =>
      match van_der_corput.draws_f64 k s1 with
      | none => none
      | some (xs, s2) => some (x :: xs, s2)

/-- Draw loop `retval.push_back(m_vdc[i]())` in binary64. -/
def halton.call_for_f64 :
    List Nat → List ℚ × List van_der_corput → Option (List ℚ × List van_der_corput)
  | [], st => some st
  | i :: rest, (retval, m_vdc) =>
    match m_vdc[i]? with
    | none => none
    | some g =>
      match g.call_f64 with
      | none => none
      | some (x, g1) => halton.call_for_f64 rest (retval ++ [x], m_vdc.set i g1)

/-- Method `halton::operator()` in binary64. -/
def halton.call_f64 (h : halton) : Option (List ℚ × halton) :=
  match halton.call_for_f64 (List.range h.m_dim) ([], h.m_vdc) with
  | none => none
  | some (retval, m_vdc) =>
    some (retval, { h with m_counter := (h.m_counter + 1) % UINT_MOD, m_vdc := m_vdc })

/-- Running `halton::operator()` `k` times in a row in binary64. -/
def halton.draws_f64 : Nat → halton → Option (List (List ℚ) × halton)
  | 0, h => some ([], h)
  | k + 1, h =>
    match h.call_f64 with
    | none => none
    | some (x, h1) =>
      match halton.draws_f64 k h1 with
      | none => none
      | some (xs, h2) => some (x :: xs, h2)

theorem vdc_while_digits (b : Nat) (hb : 2 ≤ b) :
    ∀ (fuel : Nat) (l : vdc_locals), (Nat.digits b l.i).length ≤ fuel →
      vdc_while b fuel l = some
        { retval := l.retval + l.f * (b : ℚ) * radical_of_digits b (Nat.digits b l.i)
          f := l.f / (b : ℚ) ^ (Nat.digits b l.i).length
          i := 0 } := by
  have hbq : (b : ℚ) ≠ 0 := by
    have : 0 < b := by omega
    exact_mod_cast this.ne'
  intro fuel
  induction fuel with
  | zero =>
    intro l hl
    have hi : l.i = 0 := by
      by_contra h
      have := Nat.digits_def' (show 1 < b by omega) (Nat.pos_of_ne_zero h)
      rw [this] at hl
      simp at hl
    obtain ⟨r, f, i⟩ := l
    simp only at hi
    subst hi
    simp [vdc_while, radical_of_digits]
  | succ k ih =>
    intro l hl
    obtain ⟨r, f, i⟩ := l
    rcases Nat.eq_zero_or_pos i with hi | hi
    · subst hi
      simp [vdc_while, radical_of_digits]
    · have hd := Nat.digits_def' (show 1 < b by omega) hi
      simp only at hl
      rw [hd] at hl
      simp only [List.length_cons, Nat.add_le_add_iff_right] at hl
      have := ih (vdc_body b ⟨r, f, i⟩) (by simpa [vdc_body] using hl)
      rw [vdc_while, if_pos hi, this]
      simp only [vdc_body, hd, radical_of_digits, List.length_cons]
      congr 2
      · field_simp
        ring
      · rw [pow_succ, div_div, mul_comm]

theorem digits_length_le_self (b : Nat) (hb : 2 ≤ b) (n : Nat) :
    (Nat.digits b n).length ≤ n := by
  rcases Nat.eq_zero_or_pos n with hn | hn
  · subst hn
    simp
  · rw [Nat.digits_len b n (by omega) (by omega)]
    exact Nat.log_lt_self b (by omega)

theorem radical_of_digits_eq_sum (b : Nat) (hb : 2 ≤ b) :
    ∀ ds : List Nat, radical_of_digits b ds =
      ∑ i in Finset.range ds.length, ((ds.getD i 0 : Nat) : ℚ) * (b : ℚ) ^ (-(i : ℤ) - 1) := by
  have hbq : (b : ℚ) ≠ 0 := by
    have : 0 < b := by omega
    exact_mod_cast this.ne'
  intro ds
  induction ds with
  | nil => simp [radical_of_digits]
  | cons d ds ih =>
    rw [radical_of_digits, ih, List.length_cons, Finset.sum_range_succ', add_div, add_comm,
      Finset.sum_div]
    congr 1
    · apply Finset.sum_congr rfl
      intro i _
      have hz : (b : ℚ) ^ (-((i + 1 : ℕ) : ℤ) - 1) = (b : ℚ) ^ (-(i : ℤ) - 1) / (b : ℚ) := by
        rw [show (-((i + 1 : ℕ) : ℤ) - 1) = (-(i : ℤ) - 1) - 1 by push_cast; ring,
          zpow_sub_one₀ hbq, div_eq_mul_inv]
      rw [List.getD_cons_succ, hz]
      ring
    · simp [div_eq_mul_inv]

theorem radical_of_digits_bounds (b : Nat) (hb : 2 ≤ b) :
    ∀ ds : List Nat, (∀ d ∈ ds, d < b) →
      0 ≤ radical_of_digits b ds ∧ radical_of_digits b ds < 1 := by
  have hbq : (0 : ℚ) < (b : ℚ) := by
    have : 0 < b := by omega
    exact_mod_cast this
  intro ds
  induction ds with
  | nil => intro _; simp [radical_of_digits]
  | cons d ds ih =>
    intro h
    have hd : d < b := h d (List.mem_cons_self _ _)
    obtain ⟨h0, h1⟩ := ih (fun x hx => h x (List.mem_cons_of_mem _ hx))
    have hdq : (d : ℚ) + 1 ≤ (b : ℚ) := by exact_mod_cast hd
    have hd0 : (0 : ℚ) ≤ (d : ℚ) := Nat.cast_nonneg d
    rw [radical_of_digits]
    constructor
    · positivity
    · rw [div_lt_one hbq]
      linarith

theorem call_eq (b n : Nat) (hb : 2 ≤ b) :
    van_der_corput.call { m_base := b, m_counter := n } =
      some (radical_of_digits b (Nat.digits b n),
        { m_base := b, m_counter := (n + 1) % UINT_MOD }) := by
  have hbq : (b : ℚ) ≠ 0 := by
    have : 0 < b := by omega
    exact_mod_cast this.ne'
  have h0 : b ≠ 0 := by omega
  have := vdc_while_digits b hb n { retval := 0, f := 1 / (b : ℚ), i := n }
    (digits_length_le_self b hb n)
  simp only [van_der_corput.call, h0, if_false, this]
  simp [hbq]

theorem call_radical_inverse (b n : Nat) (hb : 2 ≤ b) :
    van_der_corput.call { m_base := b, m_counter := n } =
      some (radical_inverse b n, { m_base := b, m_counter := (n + 1) % UINT_MOD }) := by
  rw [call_eq b n hb, radical_of_digits_eq_sum b hb]
  rfl

theorem radical_inverse_bounds (b n : Nat) (hb : 2 ≤ b) :
    0 ≤ radical_inverse b n ∧ radical_inverse b n < 1 := by
  have h := radical_of_digits_bounds b hb (Nat.digits b n)
    (fun d hd => Nat.digits_lt_base (by omega) hd)
  rw [radical_of_digits_eq_sum b hb] at h
  exact h

theorem radical_inverse_zero (b : Nat) : radical_inverse b 0 = 0 := by
  simp [radical_inverse]

theorem vdc_draws_spec (b : Nat) (hb : 2 ≤ b) :
    ∀ (k n : Nat), n < UINT_MOD →
      van_der_corput.draws k { m_base := b, m_counter := n } =
        some ((List.range k).map (fun j => radical_inverse b ((n + j) % UINT_MOD)),
          { m_base := b, m_counter := (n + k) % UINT_MOD }) := by
  intro k
  induction k with
  | zero =>
    intro n hn
    simp [van_der_corput.draws, Nat.mod_eq_of_lt hn]
  | succ k ih =>
    intro n hn
    have hc1 : (n + 1) % UINT_MOD < UINT_MOD := Nat.mod_lt _ (by simp [UINT_MOD])
    rw [van_der_corput.draws, call_radical_inverse b n hb]
    simp only [ih ((n + 1) % UINT_MOD) hc1]
    have e1 : ∀ j, ((n + 1) % UINT_MOD + j) % UINT_MOD = (n + (j + 1)) % UINT_MOD := by
      intro j
      simp only [UINT_MOD]
      omega
    simp only [e1, List.range_succ_eq_map, List.map_cons, List.map_map, Function.comp_def,
      Nat.add_zero, Nat.mod_eq_of_lt hn, Nat.succ_eq_add_one]

theorem vdc_draws_succ (b : Nat) (hb : 2 ≤ b) (k n : Nat) :
    van_der_corput.draws (k + 1) { m_base := b, m_counter := n } =
      some (radical_inverse b n ::
          (List.range k).map (fun j => radical_inverse b (((n + 1) % UINT_MOD + j) % UINT_MOD)),
        { m_base := b, m_counter := ((n + 1) % UINT_MOD + k) % UINT_MOD }) := by
  have hc1 : (n + 1) % UINT_MOD < UINT_MOD := Nat.mod_lt _ (by simp [UINT_MOD])
  rw [van_der_corput.draws, call_radical_inverse b n hb]
  simp only [vdc_draws_spec b hb k _ hc1]

theorem vdc_draws_base (b : Nat) (hb : 2 ≤ b) (k n : Nat) :
    ∃ xs s, van_der_corput.draws k { m_base := b, m_counter := n } = some (xs, s) ∧
      xs.length = k ∧ s.m_base = b := by
  cases k with
  | zero => exact ⟨[], _, rfl, rfl, rfl⟩
  | succ k => exact ⟨_, _, vdc_draws_succ b hb k n, by simp, rfl⟩

theorem vdc_body_i (b : Nat) (l : vdc_locals) : (vdc_body b l).i = l.i / b := rfl

theorem digits_length_pos_step (b : Nat) (hb : 2 ≤ b) (l : vdc_locals) (hi : 0 < l.i) :
    (Nat.digits b l.i).length = (Nat.digits b (vdc_body b l).i).length + 1 := by
  rw [Nat.digits_def' (show 1 < b by omega) hi, List.length_cons, vdc_body_i]

theorem vdc_while_iterate (b : Nat) (hb : 2 ≤ b) :
    ∀ (fuel : Nat) (l : vdc_locals),
      vdc_while b fuel l =
        if (Nat.digits b l.i).length ≤ fuel then
          some ((vdc_body b)^[(Nat.digits b l.i).length] l)
        else none := by
  intro fuel
  induction fuel with
  | zero =>
    intro l
    rcases Nat.eq_zero_or_pos l.i with hi | hi
    · simp [vdc_while, hi]
    · have := digits_length_pos_step b hb l hi
      have hn : ¬ (Nat.digits b l.i).length ≤ 0 := by omega
      rw [vdc_while, if_pos hi, if_neg hn]
  | succ k ih =>
    intro l
    rcases Nat.eq_zero_or_pos l.i with hi | hi
    · simp [vdc_while, hi]
    · have hlen := digits_length_pos_step b hb l hi
      rw [vdc_while, if_pos hi, ih, hlen, Function.iterate_succ_apply]
      by_cases hle : (Nat.digits b (vdc_body b l).i).length ≤ k
      · rw [if_pos hle, if_pos (Nat.succ_le_succ hle)]
      · rw [if_neg hle, if_neg (fun h => hle (Nat.le_of_succ_le_succ h))]

theorem vdc_iterate_guard (b : Nat) (hb : 2 ≤ b) :
    ∀ (j : Nat) (l : vdc_locals), j < (Nat.digits b l.i).length →
      0 < ((vdc_body b)^[j] l).i := by
  intro j
  induction j with
  | zero =>
    intro l hj
    rcases Nat.eq_zero_or_pos l.i with hi | hi
    · simp [hi] at hj
    · exact hi
  | succ j ih =>
    intro l hj
    rcases Nat.eq_zero_or_pos l.i with hi | hi
    · simp [hi] at hj
    · rw [digits_length_pos_step b hb l hi] at hj
      rw [Function.iterate_succ_apply]
      exact ih (vdc_body b l) (by omega)

theorem vdc_iterate_exit (b : Nat) (hb : 2 ≤ b) :
    ∀ (m : Nat) (l : vdc_locals), (Nat.digits b l.i).length = m →
      ((vdc_body b)^[m] l).i = 0 := by
  intro m
  induction m with
  | zero =>
    intro l hm
    rcases Nat.eq_zero_or_pos l.i with hi | hi
    · exact hi
    · rw [digits_length_pos_step b hb l hi] at hm
      omega
  | succ m ih =>
    intro l hm
    rcases Nat.eq_zero_or_pos l.i with hi | hi
    · simp [hi] at hm
    · rw [digits_length_pos_step b hb l hi] at hm
      rw [Function.iterate_succ_apply]
      exact ih (vdc_body b l) (by omega)

theorem radical_inverse_eq_of_digits (b n : Nat) (hb : 2 ≤ b) :
    radical_inverse b n = radical_of_digits b (Nat.digits b n) := by
  rw [radical_of_digits_eq_sum b hb]
  rfl

theorem radical_inverse_step (b n : Nat) (hb : 2 ≤ b) :
    radical_inverse b n = (((n % b : Nat) : ℚ) + radical_inverse b (n / b)) / (b : ℚ) := by
  rcases Nat.eq_zero_or_pos n with hn | hn
  · subst hn
    simp [radical_inverse_zero]
  · rw [radical_inverse_eq_of_digits b n hb, radical_inverse_eq_of_digits b (n / b) hb,
      Nat.digits_def' (show 1 < b by omega) hn, radical_of_digits]

theorem radical_inverse_eq_reversal (b : Nat) (hb : 2 ≤ b) :
    ∀ (k n : Nat), n < b ^ k →
      radical_inverse b n = (digit_reversal b k n : ℚ) / ((b ^ k : Nat) : ℚ) := by
  have hbq : (b : ℚ) ≠ 0 := by
    have : 0 < b := by omega
    exact_mod_cast this.ne'
  intro k
  induction k with
  | zero =>
    intro n hn
    have : n = 0 := by simpa using hn
    subst this
    simp [radical_inverse_zero, digit_reversal]
  | succ k ih =>
    intro n hn
    have hdiv : n / b < b ^ k := by
      apply Nat.div_lt_of_lt_mul
      rw [pow_succ, mul_comm] at hn
      exact hn
    have hbk : (b : ℚ) ^ k ≠ 0 := pow_ne_zero k hbq
    rw [radical_inverse_step b n hb, ih (n / b) hdiv, digit_reversal]
    push_cast
    rw [pow_succ, add_div' _ _ _ hbk, div_div]

theorem digit_reversal_lt (b : Nat) (hb : 2 ≤ b) :
    ∀ (k n : Nat), digit_reversal b k n < b ^ k := by
  intro k
  induction k with
  | zero => intro n; simp [digit_reversal]
  | succ k ih =>
    intro n
    have h1 : n % b + 1 ≤ b := Nat.mod_lt n (by omega)
    have h2 := ih (n / b)
    have h3 : (n % b + 1) * b ^ k ≤ b * b ^ k := Nat.mul_le_mul_right _ h1
    rw [digit_reversal, pow_succ, mul_comm (b ^ k) b]
    have h4 : (n % b + 1) * b ^ k = n % b * b ^ k + b ^ k := by ring
    omega

theorem digit_reversal_inj (b : Nat) (hb : 2 ≤ b) :
    ∀ (k n m : Nat), n < b ^ k → m < b ^ k →
      digit_reversal b k n = digit_reversal b k m → n = m := by
  intro k
  induction k with
  | zero =>
    intro n m hn hm _
    simp at hn hm
    omega
  | succ k ih =>
    intro n m hn hm h
    have hpos : 0 < b ^ k := Nat.pow_pos (by omega)
    have hdn : n / b < b ^ k := by
      apply Nat.div_lt_of_lt_mul
      rw [pow_succ, mul_comm] at hn
      exact hn
    have hdm : m / b < b ^ k := by
      apply Nat.div_lt_of_lt_mul
      rw [pow_succ, mul_comm] at hm
      exact hm
    have rn := digit_reversal_lt b hb k (n / b)
    have rm := digit_reversal_lt b hb k (m / b)
    simp only [digit_reversal] at h
    have e : ∀ x r, r < b ^ k → (x * b ^ k + r) / b ^ k = x := by
      intro x r hr
      rw [Nat.add_comm, Nat.add_mul_div_right _ _ hpos, Nat.div_eq_of_lt hr, Nat.zero_add]
    have hq : n % b = m % b := by
      have := congrArg (fun x => x / b ^ k) h
      simp only [e _ _ rn, e _ _ rm] at this
      exact this
    have hr : digit_reversal b k (n / b) = digit_reversal b k (m / b) := by
      rw [hq] at h
      exact Nat.add_left_cancel h
    have hd : n / b = m / b := ih _ _ hdn hdm hr
    rw [← Nat.div_add_mod n b, ← Nat.div_add_mod m b, hq, hd]

theorem digit_reversal_image (b : Nat) (hb : 2 ≤ b) (k : Nat) :
    (Finset.range (b ^ k)).image (digit_reversal b k) = Finset.range (b ^ k) := by
  apply Finset.eq_of_subset_of_card_le
  · intro x hx
    simp only [Finset.mem_image, Finset.mem_range] at hx
    obtain ⟨n, _, rfl⟩ := hx
    exact Finset.mem_range.mpr (digit_reversal_lt b hb k n)
  · rw [Finset.card_image_of_injOn]
    intro n hn m hm h
    exact digit_reversal_inj b hb k n m (Finset.mem_range.mp hn) (Finset.mem_range.mp hm) h

theorem radical_inverse_injective (b : Nat) (hb : 2 ≤ b) (n m : Nat)
    (h : radical_inverse b n = radical_inverse b m) : n = m := by
  have hn : n < b ^ (n + m) :=
    lt_of_lt_of_le (Nat.lt_pow_self (by omega) n) (Nat.pow_le_pow_right (by omega) (by omega))
  have hm : m < b ^ (n + m) :=
    lt_of_lt_of_le (Nat.lt_pow_self (by omega) m) (Nat.pow_le_pow_right (by omega) (by omega))
  have hpos : ((b ^ (n + m) : Nat) : ℚ) ≠ 0 := by
    have : 0 < b ^ (n + m) := Nat.pow_pos (by omega)
    exact_mod_cast this.ne'
  rw [radical_inverse_eq_reversal b hb _ n hn, radical_inverse_eq_reversal b hb _ m hm,
    div_left_inj' hpos] at h
  exact digit_reversal_inj b hb _ n m hn hm (by exact_mod_cast h)

theorem radical_inverse_mem_iff (b : Nat) (hb : 2 ≤ b) (k : Nat) (x : ℚ) :
    (∃ n, n < b ^ k ∧ radical_inverse b n = x) ↔
      ∃ j, j < b ^ k ∧ x = (j : ℚ) / ((b ^ k : Nat) : ℚ) := by
  constructor
  · rintro ⟨n, hn, rfl⟩
    exact ⟨digit_reversal b k n, digit_reversal_lt b hb k n,
      radical_inverse_eq_reversal b hb k n hn⟩
  · rintro ⟨j, hj, rfl⟩
    have : j ∈ (Finset.range (b ^ k)).image (digit_reversal b k) := by
      rw [digit_reversal_image b hb k]
      exact Finset.mem_range.mpr hj
    simp only [Finset.mem_image, Finset.mem_range] at this
    obtain ⟨n, hn, rfl⟩ := this
    exact ⟨n, hn, radical_inverse_eq_reversal b hb k n hn⟩

theorem vdc_first_draws (b : Nat) (hb : 2 ≤ b) (m : Nat) (hm : m ≤ UINT_MOD) :
    van_der_corput.draws m { m_base := b, m_counter := 0 } =
      some ((List.range m).map (radical_inverse b),
        { m_base := b, m_counter := m % UINT_MOD }) := by
  rw [vdc_draws_spec b hb m 0 (by simp [UINT_MOD])]
  simp only [Nat.zero_add, Option.some.injEq, Prod.mk.injEq, and_true]
  apply List.map_congr_left
  intro j hj
  rw [Nat.mod_eq_of_lt (lt_of_lt_of_le (List.mem_range.mp hj) hm)]

theorem vdc_draws_repeat :
    (van_der_corput.draws (2 ^ 33) { m_base := 2, m_counter := 0 }).map
      (fun r => (r.1[0]?, r.1[2 ^ 32]?)) = some (some 0, some 0) := by
  rw [vdc_draws_spec 2 (le_refl 2) (2 ^ 33) 0 (by simp [UINT_MOD]), Option.map_some',
    List.getElem?_map, List.getElem?_map, List.getElem?_range (by norm_num),
    List.getElem?_range (by norm_num)]
  have hm : (0 + 2 ^ 32) % UINT_MOD = 0 := by simp [UINT_MOD]
  simp only [Option.map_some', hm, Nat.add_zero, Nat.zero_mod, radical_inverse_zero]

/-! ## Lemmas on the simplex loop -/

theorem simplex_for_succ (v : List ℚ) (n : Nat) :
    simplex_for v (n + 1) = simplex_body (simplex_for v n) n := by
  simp [simplex_for, List.range_succ, List.foldl_append]

theorem simplex_for_length (v : List ℚ) (n : Nat) : (simplex_for v n).length = v.length := by
  induction n with
  | zero => simp [simplex_for]
  | succ n ih => rw [simplex_for_succ, simplex_body, List.length_set, ih]

theorem simplex_for_getElem_opt (v : List ℚ) (n j : Nat) :
    (simplex_for v n)[j]? =
      if j < n then (v[j]?).map (fun a => v.getD (j + 1) 0 - a) else v[j]? := by
  induction n generalizing j with
  | zero => simp [simplex_for]
  | succ n ih =>
    rw [simplex_for_succ, simplex_body, List.getElem?_set]
    by_cases hjn : n = j
    · subst hjn
      have h1 : (simplex_for v n).getD (n + 1) 0 = v.getD (n + 1) 0 := by
        rw [List.getD_eq_getElem?_getD, List.getD_eq_getElem?_getD, ih]
        simp
      have h2 : (simplex_for v n).getD n 0 = v.getD n 0 := by
        rw [List.getD_eq_getElem?_getD, List.getD_eq_getElem?_getD, ih]
        simp
      rw [h1, h2, simplex_for_length]
      by_cases hlen : n < v.length
      · simp [hlen, List.getD_eq_getElem?_getD]
      · have hn : v[n]? = none := List.getElem?_eq_none (by omega)
        simp [hlen, hn]
    · rw [if_neg hjn, ih]
      by_cases h : j < n
      · simp [h, Nat.lt_succ_of_lt h]
      · have : ¬ j < n + 1 := by omega
        simp [h, this]

theorem simplex_for_eq_gaps (e : List ℚ) :
    (simplex_for e (e.length - 1)).dropLast = consecutive_gaps e := by
  apply List.ext_getElem?
  intro j
  rw [List.dropLast_eq_take, List.getElem?_take, simplex_for_length, simplex_for_getElem_opt,
    consecutive_gaps, List.getElem?_zipWith]
  by_cases hj : j < e.length - 1
  · have h1 : j < e.length := by omega
    have h2 : j + 1 < e.length := by omega
    simp [hj, List.getElem?_eq_getElem h1, List.getElem?_eq_getElem h2,
      List.getD_eq_getElem?_getD]
  · have h2 : e.tail[j]? = none := by
      apply List.getElem?_eq_none
      rw [List.length_tail]
      omega
    rw [if_neg hj, h2]
    cases e[j]? <;> rfl

theorem any_out_of_unit (inp : List ℚ) :
    inp.any out_of_unit = true ↔ ∃ x ∈ inp, x < 0 ∨ 1 < x := by
  simp [List.any_eq_true, out_of_unit]

theorem simplex_extended_length (inp : List ℚ) :
    (simplex_extended inp).length = inp.length + 2 := by
  simp [simplex_extended, List.length_insertionSort]

theorem sample_from_simplex_ok (inp : List ℚ) (hne : inp ≠ [])
    (h01 : ∀ x ∈ inp, 0 ≤ x ∧ x ≤ 1) :
    sample_from_simplex inp = Except.ok (consecutive_gaps (simplex_extended inp)) := by
  have hany : ¬ (inp.any out_of_unit = true) := by
    rw [any_out_of_unit]
    rintro ⟨x, hx, h⟩
    have := h01 x hx
    rcases h with h | h <;> linarith
  have hlen : inp.length > 0 := List.length_pos.mpr hne
  simp only [sample_from_simplex, hany, hlen, if_true, if_false]
  rw [simplex_for_eq_gaps]
  simp

theorem consecutive_gaps_cons_cons (a b : ℚ) (l : List ℚ) :
    consecutive_gaps (a :: b :: l) = (b - a) :: consecutive_gaps (b :: l) := by
  simp [consecutive_gaps]

theorem consecutive_gaps_length (e : List ℚ) :
    (consecutive_gaps e).length = e.length - 1 := by
  simp [consecutive_gaps]

theorem consecutive_gaps_sum (a : ℚ) (l : List ℚ) :
    (consecutive_gaps (a :: l)).sum = (a :: l).getLast (List.cons_ne_nil a l) - a := by
  induction l generalizing a with
  | nil => simp [consecutive_gaps]
  | cons b l ih =>
    rw [consecutive_gaps_cons_cons, List.sum_cons, ih b, List.getLast_cons (List.cons_ne_nil b l)]
    ring

theorem consecutive_gaps_nonneg (e : List ℚ) (hs : e.Sorted (· ≤ ·)) :
    ∀ x ∈ consecutive_gaps e, 0 ≤ x := by
  induction e with
  | nil => simp [consecutive_gaps]
  | cons a l ih =>
    cases l with
    | nil => simp [consecutive_gaps]
    | cons b l =>
      rw [consecutive_gaps_cons_cons]
      intro x hx
      rcases List.mem_cons.mp hx with h | h
      · have : a ≤ b := List.rel_of_sorted_cons hs b (List.mem_cons_self _ _)
        rw [h]
        linarith
      · exact ih hs.of_cons x h

theorem simplex_extended_sorted (inp : List ℚ) (h01 : ∀ x ∈ inp, 0 ≤ x ∧ x ≤ 1) :
    (simplex_extended inp).Sorted (· ≤ ·) := by
  have hs : (inp.insertionSort (· ≤ ·)).Sorted (· ≤ ·) := List.sorted_insertionSort _ inp
  have hmem : ∀ x ∈ inp.insertionSort (· ≤ ·), 0 ≤ x ∧ x ≤ 1 := fun x hx =>
    h01 x ((List.perm_insertionSort _ inp).mem_iff.mp hx)
  unfold simplex_extended
  simp only [List.Sorted, List.pairwise_append, List.pairwise_cons]
  refine ⟨⟨?_, hs⟩, by simp, ?_⟩
  · intro x hx
    exact (hmem x hx).1
  · intro x hx y hy
    simp only [List.mem_singleton] at hy
    subst hy
    rcases List.mem_cons.mp hx with h | h
    · rw [h]; norm_num
    · exact (hmem x h).2

theorem consecutive_gaps_getElem_opt (e : List ℚ) (i : Nat) (h : i + 1 < e.length) :
    (consecutive_gaps e)[i]? = some (e.getD (i + 1) 0 - e.getD i 0) := by
  have h1 : i < e.length := by omega
  rw [consecutive_gaps, List.getElem?_zipWith]
  simp [List.getElem?_eq_getElem h1, List.getElem?_eq_getElem h, List.getD_eq_getElem?_getD]

theorem simplex_for_getD_of_le (v : List ℚ) (n j : Nat) (h : n ≤ j) :
    (simplex_for v n).getD j 0 = v.getD j 0 := by
  have : ¬ j < n := by omega
  rw [List.getD_eq_getElem?_getD, List.getD_eq_getElem?_getD, simplex_for_getElem_opt, if_neg this]

theorem simplex_extended_of_sorted (inp s : List ℚ) (hs : s.Sorted (· ≤ ·)) (hp : s.Perm inp) :
    simplex_extended inp = 0 :: s ++ [1] := by
  have : s = inp.insertionSort (· ≤ ·) :=
    List.eq_of_perm_of_sorted (hp.trans (List.perm_insertionSort _ inp).symm) hs
      (List.sorted_insertionSort _ inp)
  rw [this]
  rfl

theorem sample_from_simplex_perm (a b : List ℚ) (hp : a.Perm b) :
    sample_from_simplex a = sample_from_simplex b := by
  have hany : a.any out_of_unit = b.any out_of_unit := by
    rw [Bool.eq_iff_iff, any_out_of_unit, any_out_of_unit]
    constructor
    · rintro ⟨x, hx, h⟩
      exact ⟨x, hp.mem_iff.mp hx, h⟩
    · rintro ⟨x, hx, h⟩
      exact ⟨x, hp.mem_iff.mpr hx, h⟩
  have hext : simplex_extended a = simplex_extended b := by
    rw [simplex_extended_of_sorted b (a.insertionSort (· ≤ ·)) (List.sorted_insertionSort _ a)
      ((List.perm_insertionSort _ a).trans hp)]
    rfl
  simp only [sample_from_simplex, hany, hp.length_eq, hext]

theorem sample_from_simplex_singleton (x : ℚ) (h0 : 0 ≤ x) (h1 : x ≤ 1) :
    sample_from_simplex [x] = Except.ok [x, 1 - x] := by
  rw [sample_from_simplex_ok [x] (by simp) (by simpa using ⟨h0, h1⟩)]
  simp [consecutive_gaps, simplex_extended]

theorem call_for_spec :
    ∀ (post pre : List van_der_corput) (ret : List ℚ), (∀ g ∈ post, 2 ≤ g.m_base) →
      halton.call_for (List.range' pre.length post.length) (ret, pre ++ post) =
        some (ret ++ post.map (fun g => radical_inverse g.m_base g.m_counter),
          pre ++ post.map (fun g =>
            { m_base := g.m_base, m_counter := (g.m_counter + 1) % UINT_MOD })) := by
  intro post
  induction post with
  | nil => intro pre ret _; simp [halton.call_for]
  | cons g post ih =>
    intro pre ret hb
    obtain ⟨b, c⟩ := g
    have hg : 2 ≤ b := hb _ (List.mem_cons_self _ _)
    have hcall := call_radical_inverse b c hg
    have hget : (pre ++ (⟨b, c⟩ : van_der_corput) :: post)[pre.length]? = some ⟨b, c⟩ := by
      rw [List.getElem?_append_right (le_refl _)]
      simp
    have hset : (pre ++ (⟨b, c⟩ : van_der_corput) :: post).set pre.length
        { m_base := b, m_counter := (c + 1) % UINT_MOD } =
        (pre ++ [{ m_base := b, m_counter := (c + 1) % UINT_MOD }]) ++ post := by
      simp
    have := ih (pre ++ [{ m_base := b, m_counter := (c + 1) % UINT_MOD }])
      (ret ++ [radical_inverse b c])
      (fun x hx => hb x (List.mem_cons_of_mem _ hx))
    rw [List.length_append, List.length_singleton] at this
    rw [List.length_cons, List.range'_succ, halton.call_for]
    simp only [hget, hcall, hset, this]
    simp

theorem halton_call_spec (h : halton) (hlen : h.m_vdc.length = h.m_dim)
    (hb : ∀ g ∈ h.m_vdc, 2 ≤ g.m_base) :
    h.call = some (h.m_vdc.map (fun g => radical_inverse g.m_base g.m_counter),
      { m_dim := h.m_dim, m_counter := (h.m_counter + 1) % UINT_MOD,
        m_vdc := h.m_vdc.map (fun g =>
          { m_base := g.m_base, m_counter := (g.m_counter + 1) % UINT_MOD }) }) := by
  have := call_for_spec h.m_vdc [] [] hb
  simp only [List.length_nil, List.nil_append, ← List.range_eq_range', hlen] at this
  simp only [halton.call, this]

theorem halton_ctor_for_ok (prime : Nat → Except Error Nat) (f : Nat → Nat) :
    ∀ (l : List Nat) (acc : List van_der_corput),
      (∀ i ∈ l, prime (i + 1) = Except.ok (f i) ∧ 2 ≤ f i) →
      halton.ctor_for prime l acc =
        Except.ok (acc ++ l.map (fun i => { m_base := f i, m_counter := 0 })) := by
  intro l
  induction l with
  | nil => intro acc _; simp [halton.ctor_for]
  | cons i l ih =>
    intro acc h
    obtain ⟨hp, h2⟩ := h i (List.mem_cons_self _ _)
    have hc : van_der_corput.ctor_default (f i) = Except.ok { m_base := f i, m_counter := 0 } := by
      simp [van_der_corput.ctor_default, van_der_corput.ctor]
      omega
    rw [halton.ctor_for]
    simp only [hp, hc]
    rw [ih _ (fun j hj => h j (List.mem_cons_of_mem _ hj))]
    simp

theorem halton_ctor_for_inv (prime : Nat → Except Error Nat) :
    ∀ (l : List Nat) (acc vdc : List van_der_corput),
      halton.ctor_for prime l acc = Except.ok vdc →
      ∀ i ∈ l, ∃ p, prime (i + 1) = Except.ok p ∧ 2 ≤ p := by
  intro l
  induction l with
  | nil => intro _ _ _ i hi; simp at hi
  | cons j l ih =>
    intro acc vdc h i hi
    rw [halton.ctor_for] at h
    cases hp : prime (j + 1) with
    | error e => simp [hp] at h
    | ok p =>
      simp only [hp] at h
      by_cases h2 : p < 2
      · simp [van_der_corput.ctor_default, van_der_corput.ctor, h2] at h
      · simp only [van_der_corput.ctor_default, van_der_corput.ctor, h2, if_false] at h
        rcases List.mem_cons.mp hi with rfl | hi
        · exact ⟨p, hp, by omega⟩
        · exact ih _ _ h i hi

theorem halton_ctor_ok (prime : Nat → Except Error Nat) (f : Nat → Nat) (dim n : Nat)
    (h : ∀ i < dim, prime (i + 1) = Except.ok (f i) ∧ 2 ≤ f i) :
    halton.ctor prime dim n =
      Except.ok { m_dim := dim, m_counter := n,
                  m_vdc := (List.range dim).map (fun i => { m_base := f i, m_counter := 0 }) } := by
  have := halton_ctor_for_ok prime f (List.range dim) []
    (fun i hi => h i (List.mem_range.mp hi))
  simp only [halton.ctor, this, List.nil_append]

theorem halton_ctor_inv (prime : Nat → Except Error Nat) (dim n : Nat) (h : halton)
    (hc : halton.ctor prime dim n = Except.ok h) :
    ∃ f : Nat → Nat, (∀ i < dim, prime (i + 1) = Except.ok (f i) ∧ 2 ≤ f i) ∧
      h = { m_dim := dim, m_counter := n,
            m_vdc := (List.range dim).map (fun i => { m_base := f i, m_counter := 0 }) } := by
  have hinv : ∀ i < dim, ∃ p, prime (i + 1) = Except.ok p ∧ 2 ≤ p := by
    intro i hi
    cases hf : halton.ctor_for prime (List.range dim) [] with
    | error e => simp [halton.ctor, hf] at hc
    | ok vdc => exact halton_ctor_for_inv prime _ _ _ hf i (List.mem_range.mpr hi)
  refine ⟨fun i => ((prime (i + 1)).toOption).getD 0, ?_, ?_⟩
  · intro i hi
    obtain ⟨p, hp, h2⟩ := hinv i hi
    simp [hp, Except.toOption, h2]
  · have := halton_ctor_ok prime (fun i => ((prime (i + 1)).toOption).getD 0) dim n (by
      intro i hi
      obtain ⟨p, hp, h2⟩ := hinv i hi
      simp [hp, Except.toOption, h2])
    rw [this] at hc
    exact (Except.ok.inj hc).symm

theorem halton_draws_uniform (dim : Nat) (bases : List Nat) (hlen : bases.length = dim)
    (hb : ∀ b ∈ bases, 2 ≤ b) :
    ∀ (k ch c : Nat), c < UINT_MOD →
      halton.draws k { m_dim := dim, m_counter := ch,
                       m_vdc := bases.map (fun b => { m_base := b, m_counter := c }) } =
        some ((List.range k).map (fun j =>
                bases.map (fun b => radical_inverse b ((c + j) % UINT_MOD))),
              { m_dim := dim, m_counter := if k = 0 then ch else (ch + k) % UINT_MOD,
                m_vdc := bases.map (fun b =>
                  { m_base := b, m_counter := (c + k) % UINT_MOD }) }) := by
  intro k
  induction k with
  | zero =>
    intro ch c hc
    simp [halton.draws, Nat.mod_eq_of_lt hc]
  | succ k ih =>
    intro ch c hc
    have hcall := halton_call_spec
      { m_dim := dim, m_counter := ch,
        m_vdc := bases.map (fun b => { m_base := b, m_counter := c }) }
      (by simp [hlen]) (by
        intro g hg
        simp only [List.mem_map] at hg
        obtain ⟨b, hbm, rfl⟩ := hg
        exact hb b hbm)
    simp only [List.map_map, Function.comp_def] at hcall
    have hc1 : (c + 1) % UINT_MOD < UINT_MOD := Nat.mod_lt _ (by simp [UINT_MOD])
    rw [halton.draws, hcall]
    simp only [ih ((ch + 1) % UINT_MOD) ((c + 1) % UINT_MOD) hc1]
    have e1 : ∀ j, ((c + 1) % UINT_MOD + j) % UINT_MOD = (c + (j + 1)) % UINT_MOD := by
      intro j
      simp only [UINT_MOD]
      omega
    have e2 : (if k = 0 then (ch + 1) % UINT_MOD else ((ch + 1) % UINT_MOD + k) % UINT_MOD) =
        (ch + (k + 1)) % UINT_MOD := by
      simp only [UINT_MOD]
      split <;> omega
    simp only [e1, e2, List.range_succ_eq_map, List.map_cons, List.map_map, Function.comp_def,
      Nat.add_zero, Nat.mod_eq_of_lt hc, Nat.succ_eq_add_one, if_neg (Nat.succ_ne_zero k)]

theorem nth_prime_two_le (k : Nat) : 2 ≤ nth_prime k := by
  cases k with
  | zero => simp [nth_prime]
  | succ k =>
    rw [nth_prime]
    exact (Nat.find_spec (Nat.exists_infinite_primes (nth_prime k + 1))).2.two_le

theorem nth_prime_zero : nth_prime 0 = 2 := rfl

theorem nth_prime_one : nth_prime 1 = 3 := by
  rw [nth_prime, Nat.find_eq_iff]
  refine ⟨⟨by simp [nth_prime], Nat.prime_three⟩, ?_⟩
  intro m hm h
  have := h.1
  simp only [nth_prime] at this
  omega

theorem detail_prime_ok (i : Nat) :
    ∃ p, detail.prime (i + 1) = Except.ok p ∧ 2 ≤ p :=
  ⟨nth_prime i, by simp [detail.prime], nth_prime_two_le i⟩

theorem prime_choice (prime : Nat → Except Error Nat) (dim : Nat)
    (hprime : ∀ i < dim, ∃ p, prime (i + 1) = Except.ok p ∧ 2 ≤ p) :
    ∀ i < dim, prime (i + 1) = Except.ok (((prime (i + 1)).toOption).getD 0) ∧
      2 ≤ ((prime (i + 1)).toOption).getD 0 := by
  intro i hi
  obtain ⟨p, hp, h2⟩ := hprime i hi
  simp [hp, Except.toOption, h2]

theorem halton_draws_of_bases (f : Nat → Nat) (dim ch : Nat) (hf : ∀ i < dim, 2 ≤ f i)
    (k : Nat) :
    halton.draws k { m_dim := dim, m_counter := ch,
                     m_vdc := (List.range dim).map (fun i => { m_base := f i, m_counter := 0 }) } =
      some ((List.range k).map (fun j =>
              (List.range dim).map (fun i => radical_inverse (f i) (j % UINT_MOD))),
            { m_dim := dim, m_counter := if k = 0 then ch else (ch + k) % UINT_MOD,
              m_vdc := (List.range dim).map (fun i =>
                { m_base := f i, m_counter := k % UINT_MOD }) }) := by
  have := halton_draws_uniform dim ((List.range dim).map f) (by simp) (by
    intro b hb
    simp only [List.mem_map, List.mem_range] at hb
    obtain ⟨i, hi, rfl⟩ := hb
    exact hf i hi) k ch 0 (by simp [UINT_MOD])
  simpa [List.map_map, Function.comp_def] using this

theorem halton_ctor_detail_prime_one (n : Nat) :
    halton.ctor detail.prime 1 n =
      Except.ok { m_dim := 1, m_counter := n, m_vdc := [{ m_base := 2, m_counter := 0 }] } := by
  rw [halton_ctor_ok detail.prime nth_prime 1 n (fun i _ =>
    ⟨by simp [detail.prime], nth_prime_two_le i⟩)]
  simp [List.range_succ, nth_prime_zero]

theorem halton_ctor_detail_prime_two (n : Nat) :
    halton.ctor detail.prime 2 n =
      Except.ok { m_dim := 2, m_counter := n,
                  m_vdc := [{ m_base := 2, m_counter := 0 }, { m_base := 3, m_counter := 0 }] } := by
  rw [halton_ctor_ok detail.prime nth_prime 2 n (fun i _ =>
    ⟨by simp [detail.prime], nth_prime_two_le i⟩)]
  simp [List.range_succ, nth_prime_zero, nth_prime_one]

theorem halton_ctor_two_of_primes (prime : Nat → Except Error Nat) (n : Nat)
    (h1 : prime 1 = Except.ok 2) (h2 : prime 2 = Except.ok 3) :
    halton.ctor prime 2 n =
      Except.ok { m_dim := 2, m_counter := n,
                  m_vdc := [{ m_base := 2, m_counter := 0 }, { m_base := 3, m_counter := 0 }] } := by
  simp [halton.ctor, halton.ctor_for, List.range_succ, h1, h2, van_der_corput.ctor_default,
    van_der_corput.ctor]

theorem vdc_base_ten_f64 :
    van_der_corput.draws_f64 24 { m_base := 10, m_counter := 0 } =
      some ([
      0, 3602879701896397 / 36028797018963968, 3602879701896397 / 18014398509481984,
      1351079888211149 / 4503599627370496, 3602879701896397 / 9007199254740992, 1 / 2,
      1351079888211149 / 2251799813685248, 6305039478318695 / 9007199254740992,
      3602879701896397 / 4503599627370496, 8106479329266893 / 9007199254740992,
      5764607523034235 / 576460752303423488, 7926335344172073 / 72057594037927936,
      3783023686991217 / 18014398509481984, 698057942242427 / 2251799813685248,
      3692951694443807 / 9007199254740992, 2296835809958953 / 4503599627370496,
      2747195772696003 / 4503599627370496, 6395111470866105 / 9007199254740992,
      1823957849085051 / 2251799813685248, 8196551321814303 / 9007199254740992,
      5764607523034235 / 288230376151711744, 8646911284551353 / 72057594037927936,
      7926335344172073 / 36028797018963968, 1441151880758559 / 4503599627370496],
        { m_base := 10, m_counter := 24 }) := by
  decide!

theorem halton_dim_two_f64 :
    halton.draws_f64 7
        { m_dim := 2, m_counter := 0,
          m_vdc := [{ m_base := 2, m_counter := 0 }, { m_base := 3, m_counter := 0 }] } =
      some ([
      [0, 0], [1 / 2, 6004799503160661 / 18014398509481984],
      [1 / 4, 6004799503160661 / 9007199254740992],
      [3 / 4, 2001599834386887 / 18014398509481984],
      [1 / 8, 2001599834386887 / 4503599627370496], [5 / 8, 875699927544263 / 1125899906842624],
      [3 / 8, 2001599834386887 / 9007199254740992]],
        { m_dim := 2, m_counter := 7,
          m_vdc := [{ m_base := 2, m_counter := 7 }, { m_base := 3, m_counter := 7 }] }) := by
  decide!

/-! ## Claims -/

/-- C1: for every base `b ≥ 2` and counter `n`, constructing `van_der_corput(b, n)`
succeeds and one call of `operator()` returns the radical inverse
`g_n = ∑_{i < L} d_i · b^(-i-1)` of `n`, the `d_i` being the base-`b` digits of `n`,
least significant first: each of them is below `b` and `n = ∑ d_i · b^i`. -/
theorem van_der_corput_call_eq_radical_inverse (b n : Nat) (hb : 2 ≤ b) :
    van_der_corput.ctor b n = Except.ok { m_base := b, m_counter := n } ∧
    (van_der_corput.call { m_base := b, m_counter := n }).map Prod.fst =
      some (radical_inverse b n) ∧
    radical_inverse b n =
      ∑ i in Finset.range (Nat.digits b n).length,
        (((Nat.digits b n).getD i 0 : Nat) : ℚ) * (b : ℚ) ^ (-(i : ℤ) - 1) ∧
    (∀ d ∈ Nat.digits b n, d < b) ∧ Nat.ofDigits b (Nat.digits b n) = n := by
  refine ⟨?_, ?_, rfl, fun d hd => Nat.digits_lt_base (by omega) hd, Nat.ofDigits_digits b n⟩
  · have : ¬ b < 2 := by omega
    simp [van_der_corput.ctor, this]
  · rw [call_radical_inverse b n hb]
    rfl

/-- Witness of C1 at base 10, counter 12. -/
theorem van_der_corput_call_eq_radical_inverse_witness :
    2 ≤ 10 ∧
    (van_der_corput.ctor 10 12 = Except.ok { m_base := 10, m_counter := 12 } ∧
     (van_der_corput.call { m_base := 10, m_counter := 12 }).map Prod.fst =
       some (radical_inverse 10 12) ∧
     radical_inverse 10 12 =
       ∑ i in Finset.range (Nat.digits 10 12).length,
         (((Nat.digits 10 12).getD i 0 : Nat) : ℚ) * ((10 : Nat) : ℚ) ^ (-(i : ℤ) - 1) ∧
     (∀ d ∈ Nat.digits 10 12, d < 10) ∧ Nat.ofDigits 10 (Nat.digits 10 12) = 12) :=
  ⟨by decide, van_der_corput_call_eq_radical_inverse 10 12 (by decide)⟩

/-- C2: for every base `b ≥ 2` and counter `n`, one call of `operator()` on
`van_der_corput(b, n)` returns a value `x` with `0 ≤ x < 1`. -/
theorem van_der_corput_call_in_unit_interval (b n : Nat) (hb : 2 ≤ b) :
    ∃ g x s, van_der_corput.ctor b n = Except.ok g ∧ g.call = some (x, s) ∧
      0 ≤ x ∧ x < 1 := by
  have hc : van_der_corput.ctor b n = Except.ok { m_base := b, m_counter := n } := by
    have : ¬ b < 2 := by omega
    simp [van_der_corput.ctor, this]
  exact ⟨_, radical_inverse b n, _, hc, call_radical_inverse b n hb,
    radical_inverse_bounds b n hb⟩

/-- Witness of C2 at base 3, counter 5. -/
theorem van_der_corput_call_in_unit_interval_witness :
    2 ≤ 3 ∧
    ∃ g x s, van_der_corput.ctor 3 5 = Except.ok g ∧ g.call = some (x, s) ∧
      0 ≤ x ∧ x < 1 :=
  ⟨by decide, van_der_corput_call_in_unit_interval 3 5 (by decide)⟩

/-- C3: the constructor of `van_der_corput` throws `std::invalid_argument` exactly when
`b < 2`; otherwise it returns the generator with base `b` and counter `n`, the
counter being `0` when the start is left out. -/
theorem van_der_corput_ctor_fails_iff (b n : Nat) :
    (van_der_corput.ctor b n = Except.error Error.invalid_argument ↔ b < 2) ∧
    (van_der_corput.ctor b n = Except.ok { m_base := b, m_counter := n } ↔ 2 ≤ b) ∧
    (van_der_corput.ctor_default b = Except.ok { m_base := b, m_counter := 0 } ↔ 2 ≤ b) := by
  by_cases h : b < 2
  · have h2 : ¬ 2 ≤ b := by omega
    simp [van_der_corput.ctor_default, van_der_corput.ctor, h, h2]
  · have h2 : 2 ≤ b := by omega
    simp [van_der_corput.ctor_default, van_der_corput.ctor, h, h2]

/-- C4: `sample_from_simplex` throws `std::invalid_argument` exactly when the input is
empty or has an element below `0` or above `1`; it returns a value exactly when the
input is non-empty with every element in `[0, 1]`. -/
theorem sample_from_simplex_fails_iff (inp : List ℚ) :
    (sample_from_simplex inp = Except.error Error.invalid_argument ↔
      (inp = [] ∨ ∃ x ∈ inp, x < 0 ∨ 1 < x)) ∧
    ((∃ r, sample_from_simplex inp = Except.ok r) ↔
      (inp ≠ [] ∧ ∀ x ∈ inp, 0 ≤ x ∧ x ≤ 1)) := by
  by_cases hany : inp.any out_of_unit = true
  · have hex := (any_out_of_unit inp).mp hany
    have hnot : ¬ ∀ x ∈ inp, 0 ≤ x ∧ x ≤ 1 := by
      intro h
      obtain ⟨x, hx, hlt⟩ := hex
      have := h x hx
      rcases hlt with hlt | hlt <;> linarith
    simp only [sample_from_simplex, hany, if_true]
    simp [hex, hnot]
  · have hall : ∀ x ∈ inp, 0 ≤ x ∧ x ≤ 1 := by
      intro x hx
      have hnex := mt (any_out_of_unit inp).mpr hany
      constructor
      · by_contra hlt
        exact hnex ⟨x, hx, Or.inl (lt_of_not_ge hlt)⟩
      · by_contra hlt
        exact hnex ⟨x, hx, Or.inr (lt_of_not_ge hlt)⟩
    have hnex : ¬ ∃ x ∈ inp, x < 0 ∨ 1 < x := mt (any_out_of_unit inp).mpr hany
    by_cases hne : inp = []
    · subst hne
      simp [sample_from_simplex]
    · rw [sample_from_simplex_ok inp hne hall]
      refine ⟨?_, fun _ => ⟨hne, hall⟩, fun _ => ⟨_, rfl⟩⟩
      constructor
      · intro h
        cases h
      · rintro (h | h)
        · exact absurd h hne
        · exact absurd h hnex

/-- C5: for a non-empty input with every element in `[0, 1]`, `sample_from_simplex`
returns one number more than it was given, each of them `≥ 0`, and they sum to
exactly `1`. -/
theorem sample_from_simplex_on_simplex (inp : List ℚ) (hne : inp ≠ [])
    (h01 : ∀ x ∈ inp, 0 ≤ x ∧ x ≤ 1) :
    ∃ r, sample_from_simplex inp = Except.ok r ∧ r.length = inp.length + 1 ∧
      (∀ x ∈ r, 0 ≤ x) ∧ r.sum = 1 := by
  refine ⟨_, sample_from_simplex_ok inp hne h01, ?_, ?_, ?_⟩
  · rw [consecutive_gaps_length, simplex_extended_length]
    rfl
  · exact consecutive_gaps_nonneg _ (simplex_extended_sorted inp h01)
  · have : simplex_extended inp = 0 :: (inp.insertionSort (· ≤ ·) ++ [1]) := rfl
    rw [this, consecutive_gaps_sum]
    simp [List.getLast_cons]

/-- Witness of C5 at the input `[3/4, 1/4]`. -/
theorem sample_from_simplex_on_simplex_witness :
    ([3 / 4, 1 / 4] : List ℚ) ≠ [] ∧ (∀ x ∈ ([3 / 4, 1 / 4] : List ℚ), 0 ≤ x ∧ x ≤ 1) ∧
    ∃ r, sample_from_simplex [3 / 4, 1 / 4] = Except.ok r ∧ r.length = 2 + 1 ∧
      (∀ x ∈ r, 0 ≤ x) ∧ r.sum = 1 :=
  ⟨by simp, by norm_num,
    sample_from_simplex_on_simplex [3 / 4, 1 / 4] (by simp) (by norm_num)⟩

/-- C6: for a non-empty input with every element in `[0, 1]`, and `s` its ascending
rearrangement, the working vector is `e = [0] ++ s ++ [1]` and the result is the list of
gaps `e[i+1] - e[i]`, `0 ≤ i ≤ k`.  Iteration `i` of the overwriting loop reads positions
`i` and `i+1`, which still hold the values of `e`.  On `[1/2]` the result is
`[1/2, 1/2]`. -/
theorem sample_from_simplex_eq_gaps (inp s : List ℚ) (hne : inp ≠ [])
    (h01 : ∀ x ∈ inp, 0 ≤ x ∧ x ≤ 1) (hs : s.Sorted (· ≤ ·)) (hp : s.Perm inp) :
    ∃ r e, e = 0 :: s ++ [1] ∧ simplex_extended inp = e ∧
      sample_from_simplex inp = Except.ok r ∧ r.length = inp.length + 1 ∧
      (∀ i, i ≤ inp.length → r[i]? = some (e.getD (i + 1) 0 - e.getD i 0)) ∧
      (∀ i, i ≤ inp.length →
        (simplex_for e i).getD i 0 = e.getD i 0 ∧
        (simplex_for e i).getD (i + 1) 0 = e.getD (i + 1) 0) ∧
      sample_from_simplex [1 / 2] = Except.ok [1 / 2, 1 / 2] := by
  have he := simplex_extended_of_sorted inp s hs hp
  have hlen := simplex_extended_length inp
  refine ⟨_, _, rfl, he, sample_from_simplex_ok inp hne h01, ?_, ?_, ?_, ?_⟩
  · rw [consecutive_gaps_length, hlen]
    rfl
  · intro i hi
    rw [← he]
    exact consecutive_gaps_getElem_opt _ i (by omega)
  · intro i _
    exact ⟨simplex_for_getD_of_le _ i i (le_refl i),
      simplex_for_getD_of_le _ i (i + 1) (Nat.le_succ i)⟩
  · rw [sample_from_simplex_ok [1 / 2] (by simp) (by norm_num)]
    simp [consecutive_gaps, simplex_extended]
    norm_num

/-- Witness of C6 at the input `[3/4, 1/4]`, whose ascending rearrangement is
`[1/4, 3/4]`. -/
theorem sample_from_simplex_eq_gaps_witness :
    ([3 / 4, 1 / 4] : List ℚ) ≠ [] ∧ (∀ x ∈ ([3 / 4, 1 / 4] : List ℚ), 0 ≤ x ∧ x ≤ 1) ∧
    ([1 / 4, 3 / 4] : List ℚ).Sorted (· ≤ ·) ∧
    ([1 / 4, 3 / 4] : List ℚ).Perm [3 / 4, 1 / 4] ∧
    ∃ r e, e = 0 :: ([1 / 4, 3 / 4] : List ℚ) ++ [1] ∧ simplex_extended [3 / 4, 1 / 4] = e ∧
      sample_from_simplex [3 / 4, 1 / 4] = Except.ok r ∧ r.length = 2 + 1 ∧
      (∀ i, i ≤ 2 → r[i]? = some (e.getD (i + 1) 0 - e.getD i 0)) ∧
      (∀ i, i ≤ 2 →
        (simplex_for e i).getD i 0 = e.getD i 0 ∧
        (simplex_for e i).getD (i + 1) 0 = e.getD (i + 1) 0) ∧
      sample_from_simplex [1 / 2] = Except.ok [1 / 2, 1 / 2] :=
  ⟨by simp, by norm_num, by simp [List.Sorted]; norm_num, List.Perm.swap _ _ _,
    sample_from_simplex_eq_gaps [3 / 4, 1 / 4] [1 / 4, 3 / 4] (by simp) (by norm_num)
      (by simp [List.Sorted]; norm_num) (List.Perm.swap _ _ _)⟩

/-- C8: when the prime source returns values `≥ 2` for the indices `1..dim`, `halton(dim, n)`
is constructed, and any number `m` of draws succeeds, each point drawn having exactly
`dim` components, all of them in `[0, 1)`. -/
theorem halton_draws_in_unit_cube (prime : Nat → Except Error Nat) (dim n : Nat)
    (hprime : ∀ i < dim, ∃ p, prime (i + 1) = Except.ok p ∧ 2 ≤ p) :
    ∃ h, halton.ctor prime dim n = Except.ok h ∧
      ∀ m, ∃ pts h1, halton.draws m h = some (pts, h1) ∧ pts.length = m ∧
        ∀ pt ∈ pts, pt.length = dim ∧ ∀ x ∈ pt, 0 ≤ x ∧ x < 1 := by
  have hf := prime_choice prime dim hprime
  refine ⟨_, halton_ctor_ok prime _ dim n hf, ?_⟩
  intro m
  refine ⟨_, _, halton_draws_of_bases _ dim n (fun i hi => (hf i hi).2) m, by simp, ?_⟩
  intro pt hpt
  simp only [List.mem_map, List.mem_range] at hpt
  obtain ⟨j, _, rfl⟩ := hpt
  refine ⟨by simp, ?_⟩
  intro x hx
  simp only [List.mem_map, List.mem_range] at hx
  obtain ⟨i, hi, rfl⟩ := hx
  exact radical_inverse_bounds _ _ (hf i hi).2

/-- Witness of C8 with the prime source of the spec, `dim = 2`. -/
theorem halton_draws_in_unit_cube_witness :
    (∀ i < 2, ∃ p, detail.prime (i + 1) = Except.ok p ∧ 2 ≤ p) ∧
    ∃ h, halton.ctor detail.prime 2 0 = Except.ok h ∧
      ∀ m, ∃ pts h1, halton.draws m h = some (pts, h1) ∧ pts.length = m ∧
        ∀ pt ∈ pts, pt.length = 2 ∧ ∀ x ∈ pt, 0 ≤ x ∧ x < 1 :=
  ⟨fun i _ => detail_prime_ok i,
    halton_draws_in_unit_cube detail.prime 2 0 (fun i _ => detail_prime_ok i)⟩

/-- C9: the constructor of `halton` stores the start `n` in its own counter only; the
sub-generators are built from their base alone and start at `0`.  The first draw of
`halton(2, 1)` is `(0, 0)`, while the element at position 1 of the sequence, the second
draw of `halton(2, 0)`, is `(1/2, 1/3)`. -/
theorem halton_ctor_ignores_start :
    halton.ctor detail.prime 2 1 =
      Except.ok { m_dim := 2, m_counter := 1,
                  m_vdc := [{ m_base := 2, m_counter := 0 }, { m_base := 3, m_counter := 0 }] } ∧
    (halton.draws 1
        { m_dim := 2, m_counter := 1,
          m_vdc := [{ m_base := 2, m_counter := 0 }, { m_base := 3, m_counter := 0 }] }).map
      Prod.fst = some [[0, 0]] ∧
    halton.ctor detail.prime 2 0 =
      Except.ok { m_dim := 2, m_counter := 0,
                  m_vdc := [{ m_base := 2, m_counter := 0 }, { m_base := 3, m_counter := 0 }] } ∧
    (halton.draws 2
        { m_dim := 2, m_counter := 0,
          m_vdc := [{ m_base := 2, m_counter := 0 }, { m_base := 3, m_counter := 0 }] }).map
      Prod.fst = some [[0, 0], [1 / 2, 1 / 3]] := by
  refine ⟨halton_ctor_detail_prime_two 1, ?_, halton_ctor_detail_prime_two 0, ?_⟩
  · simp [halton.draws, halton.call, halton.call_for, List.range_succ, van_der_corput.call,
      vdc_while, UINT_MOD]
  · simp [halton.draws, halton.call, halton.call_for, List.range_succ, van_der_corput.call,
      vdc_while, vdc_body, UINT_MOD]

/-- C10: the first 10 calls of `operator()` on `van_der_corput(2, 0)` return
`0, 1/2, 1/4, 3/4, 1/8, 5/8, 3/8, 7/8, 1/16, 9/16`, and the first 16 continue with
`5/16, 13/16, 3/16, 11/16, 7/16, 15/16`. -/
theorem van_der_corput_base_two_draws :
    van_der_corput.ctor_default 2 = Except.ok { m_base := 2, m_counter := 0 } ∧
    (van_der_corput.draws 10 { m_base := 2, m_counter := 0 }).map Prod.fst =
      some [0, 1 / 2, 1 / 4, 3 / 4, 1 / 8, 5 / 8, 3 / 8, 7 / 8, 1 / 16, 9 / 16] ∧
    (van_der_corput.draws 16 { m_base := 2, m_counter := 0 }).map Prod.fst =
      some [0, 1 / 2, 1 / 4, 3 / 4, 1 / 8, 5 / 8, 3 / 8, 7 / 8, 1 / 16, 9 / 16,
        5 / 16, 13 / 16, 3 / 16, 11 / 16, 7 / 16, 15 / 16] := by
  refine ⟨by simp [van_der_corput.ctor_default, van_der_corput.ctor], ?_, ?_⟩
  · simp [van_der_corput.draws, van_der_corput.call, vdc_while, vdc_body, UINT_MOD]
    norm_num
  · simp [van_der_corput.draws, van_der_corput.call, vdc_while, vdc_body, UINT_MOD]
    norm_num

/-- C11 (as stated) fails on the doubles returned: with `prime(1) = 2` and `prime(2) = 3`,
the second component of the sixth draw of `halton(2, 0)`, computed in binary64, is
`0.7777777777777777`, which is neither `7/9` nor the double nearest to `7/9`; that of
the second draw is the double nearest to `1/3`, not `1/3`. -/
theorem halton_dim_two_draws_binary64 :
    halton.ctor detail.prime 2 0 =
      Except.ok { m_dim := 2, m_counter := 0,
                  m_vdc := [{ m_base := 2, m_counter := 0 }, { m_base := 3, m_counter := 0 }] } ∧
    (halton.draws_f64 6
        { m_dim := 2, m_counter := 0,
          m_vdc := [{ m_base := 2, m_counter := 0 }, { m_base := 3, m_counter := 0 }] }).map
      (fun r => r.1[5]?) =
      some (some [5 / 8, 875699927544263 / 1125899906842624]) ∧
    (875699927544263 / 1125899906842624 : ℚ) ≠ 7 / 9 ∧
    fl (7 / 9) = 7005599420354105 / 9007199254740992 ∧
    (875699927544263 / 1125899906842624 : ℚ) ≠ fl (7 / 9) ∧
    (halton.draws_f64 2
        { m_dim := 2, m_counter := 0,
          m_vdc := [{ m_base := 2, m_counter := 0 }, { m_base := 3, m_counter := 0 }] }).map
      (fun r => r.1[1]?) =
      some (some [1 / 2, 6004799503160661 / 18014398509481984]) ∧
    (6004799503160661 / 18014398509481984 : ℚ) ≠ 1 / 3 := by
  have hf : fl (7 / 9) = 7005599420354105 / 9007199254740992 := by decide!
  refine ⟨halton_ctor_detail_prime_two 0, by decide!, by norm_num, hf, ?_, by decide!,
    by norm_num⟩
  rw [hf]
  norm_num

/-- C11 (amended): with `prime(1) = 2` and `prime(2) = 3`, in exact arithmetic the first two
draws of `halton(2, 0)` are `(0, 0)` and `(1/2, 1/3)` and the first seven are
`(0,0), (1/2,1/3), (1/4,2/3), (3/4,1/9), (1/8,4/9), (5/8,7/9), (3/8,2/9)`, in that
order; computed in binary64 the seven draws have these first components exactly and
second components within `2^-53` of the listed values. -/
theorem halton_dim_two_draws (prime : Nat → Except Error Nat)
    (h1 : prime 1 = Except.ok 2) (h2 : prime 2 = Except.ok 3) :
    ∃ h, halton.ctor prime 2 0 = Except.ok h ∧
      (halton.draws 2 h).map Prod.fst = some [[0, 0], [1 / 2, 1 / 3]] ∧
      (halton.draws 7 h).map Prod.fst =
        some [[0, 0], [1 / 2, 1 / 3], [1 / 4, 2 / 3], [3 / 4, 1 / 9], [1 / 8, 4 / 9],
          [5 / 8, 7 / 9], [3 / 8, 2 / 9]] ∧
      ∃ pts hf, halton.draws_f64 7 h = some (pts, hf) ∧ pts.length = 7 ∧
        ∀ k, k < 7 → (pts.getD k []).length = 2 ∧
          (pts.getD k []).getD 0 0 =
            (([[0, 0], [1 / 2, 1 / 3], [1 / 4, 2 / 3], [3 / 4, 1 / 9], [1 / 8, 4 / 9],
          [5 / 8, 7 / 9], [3 / 8, 2 / 9]] : List (List ℚ)).getD k []).getD 0 0 ∧
          |(pts.getD k []).getD 1 0 -
            (([[0, 0], [1 / 2, 1 / 3], [1 / 4, 2 / 3], [3 / 4, 1 / 9], [1 / 8, 4 / 9],
          [5 / 8, 7 / 9], [3 / 8, 2 / 9]] : List (List ℚ)).getD k []).getD 1 0| ≤ 1 / 2 ^ 53 := by
  refine ⟨_, halton_ctor_two_of_primes prime 0 h1 h2, ?_, ?_, _, _, halton_dim_two_f64, rfl,
    by decide!⟩
  · simp [halton.draws, halton.call, halton.call_for, List.range_succ, van_der_corput.call,
      vdc_while, vdc_body, UINT_MOD]
  · simp [halton.draws, halton.call, halton.call_for, List.range_succ, van_der_corput.call,
      vdc_while, vdc_body, UINT_MOD]
    norm_num

/-- Witness of C11 (amended) with the prime source of the spec. -/
theorem halton_dim_two_draws_witness :
    detail.prime 1 = Except.ok 2 ∧ detail.prime 2 = Except.ok 3 ∧
    ∃ h, halton.ctor detail.prime 2 0 = Except.ok h ∧
      (halton.draws 2 h).map Prod.fst = some [[0, 0], [1 / 2, 1 / 3]] ∧
      (halton.draws 7 h).map Prod.fst =
        some [[0, 0], [1 / 2, 1 / 3], [1 / 4, 2 / 3], [3 / 4, 1 / 9], [1 / 8, 4 / 9],
          [5 / 8, 7 / 9], [3 / 8, 2 / 9]] ∧
      ∃ pts hf, halton.draws_f64 7 h = some (pts, hf) ∧ pts.length = 7 ∧
        ∀ k, k < 7 → (pts.getD k []).length = 2 ∧
          (pts.getD k []).getD 0 0 =
            (([[0, 0], [1 / 2, 1 / 3], [1 / 4, 2 / 3], [3 / 4, 1 / 9], [1 / 8, 4 / 9],
          [5 / 8, 7 / 9], [3 / 8, 2 / 9]] : List (List ℚ)).getD k []).getD 0 0 ∧
          |(pts.getD k []).getD 1 0 -
            (([[0, 0], [1 / 2, 1 / 3], [1 / 4, 2 / 3], [3 / 4, 1 / 9], [1 / 8, 4 / 9],
          [5 / 8, 7 / 9], [3 / 8, 2 / 9]] : List (List ℚ)).getD k []).getD 1 0| ≤ 1 / 2 ^ 53 :=
  ⟨by simp [detail.prime, nth_prime_zero], by simp [detail.prime, nth_prime_one],
    halton_dim_two_draws detail.prime (by simp [detail.prime, nth_prime_zero])
      (by simp [detail.prime, nth_prime_one])⟩

/-- C12 (as stated) fails at the largest counter value: one draw from counter `2^32 - 1`
leaves counter `0`, not `2^32`. -/
theorem van_der_corput_counter_wraps :
    (van_der_corput.call { m_base := 2, m_counter := 4294967295 }).map
        (fun r => r.2.m_counter) = some 0 ∧
    (0 : Nat) ≠ 4294967295 + 1 := by
  refine ⟨?_, by decide⟩
  rw [call_radical_inverse 2 4294967295 (le_refl 2)]
  rfl

/-- C12 (amended): from a state with base `b ≥ 2`, one draw returns a value, leaves the
base unchanged and sets the counter to the previous counter plus 1 modulo `2^32`, which
is the previous counter plus 1 unless that was `2^32 - 1`; after any number of draws
the base is still `b ≥ 2`. -/
theorem van_der_corput_call_frame (b n : Nat) (hb : 2 ≤ b) :
    (∃ x s, van_der_corput.call { m_base := b, m_counter := n } = some (x, s) ∧
      s.m_base = b ∧ s.m_counter = (n + 1) % UINT_MOD ∧
      (n + 1 < UINT_MOD → s.m_counter = n + 1)) ∧
    ∀ k, ∃ xs s, van_der_corput.draws k { m_base := b, m_counter := n } = some (xs, s) ∧
      s.m_base = b ∧ 2 ≤ s.m_base := by
  constructor
  · exact ⟨_, _, call_radical_inverse b n hb, rfl, rfl, fun h => Nat.mod_eq_of_lt h⟩
  · intro k
    obtain ⟨xs, s, h, _, hs⟩ := vdc_draws_base b hb k n
    exact ⟨xs, s, h, hs, by rw [hs]; exact hb⟩

/-- Witness of C12 (amended) at base 2, counter 7. -/
theorem van_der_corput_call_frame_witness :
    2 ≤ 2 ∧
    ((∃ x s, van_der_corput.call { m_base := 2, m_counter := 7 } = some (x, s) ∧
      s.m_base = 2 ∧ s.m_counter = (7 + 1) % UINT_MOD ∧
      (7 + 1 < UINT_MOD → s.m_counter = 7 + 1)) ∧
    ∀ k, ∃ xs s, van_der_corput.draws k { m_base := 2, m_counter := 7 } = some (xs, s) ∧
      s.m_base = 2 ∧ 2 ≤ s.m_base) :=
  ⟨by decide, van_der_corput_call_frame 2 7 (by decide)⟩

/-- C13 (as stated) fails on inputs of size 1: `sample_from_simplex([1/2])` returns
`[1/2, 1/2]` and throws nothing. -/
theorem sample_from_simplex_size_one_returns :
    ([1 / 2] : List ℚ).length = 1 ∧
    sample_from_simplex [1 / 2] = Except.ok [1 / 2, 1 / 2] ∧
    sample_from_simplex [1 / 2] ≠ Except.error Error.invalid_argument := by
  have h := sample_from_simplex_singleton (1 / 2) (by norm_num) (by norm_num)
  have e : (1 : ℚ) - 1 / 2 = 1 / 2 := by norm_num
  rw [e] at h
  refine ⟨rfl, h, ?_⟩
  rw [h]
  intro hc
  cases hc

/-- C13 (amended): `sample_from_simplex` throws `std::invalid_argument` for the input of
size 0; for an input `[x]` of size 1 it throws exactly when `x < 0` or `x > 1`, and
returns `[x, 1 - x]` exactly when `0 ≤ x ≤ 1`. -/
theorem sample_from_simplex_small_inputs (x : ℚ) :
    sample_from_simplex [] = Except.error Error.invalid_argument ∧
    (sample_from_simplex [x] = Except.error Error.invalid_argument ↔ (x < 0 ∨ 1 < x)) ∧
    (sample_from_simplex [x] = Except.ok [x, 1 - x] ↔ (0 ≤ x ∧ x ≤ 1)) := by
  refine ⟨by simp [sample_from_simplex], ?_⟩
  by_cases h : x < 0 ∨ 1 < x
  · have hany : ([x] : List ℚ).any out_of_unit = true := by
      rw [any_out_of_unit]
      exact ⟨x, by simp, h⟩
    have herr : sample_from_simplex [x] = Except.error Error.invalid_argument := by
      simp only [sample_from_simplex, hany, if_true]
    rw [herr]
    refine ⟨⟨fun _ => h, fun _ => rfl⟩, ⟨fun hc => (by cases hc), fun hc => ?_⟩⟩
    rcases h with h | h
    · exact absurd hc.1 (not_le.mpr h)
    · exact absurd hc.2 (not_le.mpr h)
  · have h0 : 0 ≤ x := le_of_not_lt (fun hx => h (Or.inl hx))
    have h1 : x ≤ 1 := le_of_not_lt (fun hx => h (Or.inr hx))
    rw [sample_from_simplex_singleton x h0 h1]
    exact ⟨⟨fun hc => (by cases hc), fun hc => absurd hc h⟩, ⟨fun _ => ⟨h0, h1⟩, fun _ => rfl⟩⟩

/-- C14 (as stated) fails on the doubles returned: the fourth draw of
`van_der_corput(10, 0)`, computed in binary64, is `0.30000000000000004`, which is
neither `3/10` nor the double nearest to `3/10`. -/
theorem van_der_corput_base_ten_draws_binary64 :
    van_der_corput.ctor_default 10 = Except.ok { m_base := 10, m_counter := 0 } ∧
    (van_der_corput.draws_f64 4 { m_base := 10, m_counter := 0 }).map (fun r => r.1[3]?) =
      some (some (1351079888211149 / 4503599627370496)) ∧
    (1351079888211149 / 4503599627370496 : ℚ) ≠ 3 / 10 ∧
    fl (3 / 10) = 5404319552844595 / 18014398509481984 ∧
    (1351079888211149 / 4503599627370496 : ℚ) ≠ fl (3 / 10) := by
  have hf : fl (3 / 10) = 5404319552844595 / 18014398509481984 := by decide!
  refine ⟨by simp [van_der_corput.ctor_default, van_der_corput.ctor], by decide!, by norm_num,
    hf, ?_⟩
  rw [hf]
  norm_num

/-- C14 (amended): in exact arithmetic the first 24 calls of `operator()` on
`van_der_corput(10, 0)` return `0, 1/10, …, 9/10, 1/100, 11/100, …, 91/100, 2/100,
12/100, 22/100, 32/100`; computed in binary64 each of the 24 values returned is within
`2^-53` of the listed one. -/
theorem van_der_corput_base_ten_draws :
    van_der_corput.ctor_default 10 = Except.ok { m_base := 10, m_counter := 0 } ∧
    (van_der_corput.draws 24 { m_base := 10, m_counter := 0 }).map Prod.fst =
      some [0, 1 / 10, 2 / 10, 3 / 10, 4 / 10, 5 / 10, 6 / 10, 7 / 10, 8 / 10, 9 / 10,
        1 / 100, 11 / 100, 21 / 100, 31 / 100, 41 / 100, 51 / 100, 61 / 100, 71 / 100,
        81 / 100, 91 / 100, 2 / 100, 12 / 100, 22 / 100, 32 / 100] ∧
    ∃ xs s, van_der_corput.draws_f64 24 { m_base := 10, m_counter := 0 } = some (xs, s) ∧
      xs.length = 24 ∧
      ∀ i, i < 24 → |xs.getD i 0 - (([0, 1 / 10, 2 / 10, 3 / 10, 4 / 10, 5 / 10, 6 / 10, 7 / 10, 8 / 10, 9 / 10,
        1 / 100, 11 / 100, 21 / 100, 31 / 100, 41 / 100, 51 / 100, 61 / 100, 71 / 100,
        81 / 100, 91 / 100, 2 / 100, 12 / 100, 22 / 100, 32 / 100] : List ℚ).getD i 0)| ≤ 1 / 2 ^ 53 := by
  refine ⟨by simp [van_der_corput.ctor_default, van_der_corput.ctor], ?_, _, _,
    vdc_base_ten_f64, rfl, by decide!⟩
  simp [van_der_corput.draws, van_der_corput.call, vdc_while, vdc_body, UINT_MOD]
  norm_num

/-- C15 (as stated) fails at the largest counter value: one draw of
`halton(1, 2^32 - 1)` leaves the generator's own counter at `0`, not at `2^32`. -/
theorem halton_counter_wraps :
    halton.ctor detail.prime 1 4294967295 =
      Except.ok { m_dim := 1, m_counter := 4294967295,
                  m_vdc := [{ m_base := 2, m_counter := 0 }] } ∧
    (halton.call { m_dim := 1, m_counter := 4294967295,
                   m_vdc := [{ m_base := 2, m_counter := 0 }] }).map
        (fun r => r.2.m_counter) = some 0 ∧
    (0 : Nat) ≠ 4294967295 + 1 := by
  refine ⟨halton_ctor_detail_prime_one 4294967295, ?_, by decide⟩
  rw [halton_call_spec _ rfl (by simp)]
  rfl

/-- C15 (amended): after construction of `halton(dim, n)` and after any number `k` of
draws, the generator has `dim` sub-generators, sub-generator `i` has base `prime(i+1)`,
and all sub-generators hold the same counter value, `k mod 2^32`; the next draw
advances every sub-generator's counter and the generator's own counter by 1
modulo `2^32`, and keeps the dimension and the bases. -/
theorem halton_state_invariant (prime : Nat → Except Error Nat) (dim n : Nat) (h : halton)
    (hc : halton.ctor prime dim n = Except.ok h) (k : Nat) :
    ∃ pts h1 q h2, halton.draws k h = some (pts, h1) ∧ h1.call = some (q, h2) ∧
      h1.m_dim = dim ∧ h1.m_vdc.length = dim ∧ h2.m_dim = dim ∧ h2.m_vdc.length = dim ∧
      h2.m_counter = (h1.m_counter + 1) % UINT_MOD ∧
      ∀ i < dim, ∃ p g1 g2, prime (i + 1) = Except.ok p ∧
        h1.m_vdc[i]? = some g1 ∧ h2.m_vdc[i]? = some g2 ∧
        g1.m_base = p ∧ g2.m_base = p ∧
        g1.m_counter = k % UINT_MOD ∧ g2.m_counter = (g1.m_counter + 1) % UINT_MOD := by
  obtain ⟨f, hf, rfl⟩ := halton_ctor_inv prime dim n h hc
  have hd := halton_draws_of_bases f dim n (fun i hi => (hf i hi).2) k
  have hcall := halton_call_spec
    { m_dim := dim, m_counter := if k = 0 then n else (n + k) % UINT_MOD,
      m_vdc := (List.range dim).map (fun i => { m_base := f i, m_counter := k % UINT_MOD }) }
    (by simp) (by
      intro g hg
      simp only [List.mem_map, List.mem_range] at hg
      obtain ⟨i, hi, rfl⟩ := hg
      exact (hf i hi).2)
  refine ⟨_, _, _, _, hd, hcall, rfl, by simp, rfl, by simp, rfl, ?_⟩
  intro i hi
  refine ⟨f i, { m_base := f i, m_counter := k % UINT_MOD },
    { m_base := f i, m_counter := (k % UINT_MOD + 1) % UINT_MOD }, (hf i hi).1, ?_, ?_,
    rfl, rfl, rfl, rfl⟩
  · simp only []
    rw [List.getElem?_map, List.getElem?_range hi]
    rfl
  · simp only []
    rw [List.getElem?_map, List.getElem?_map, List.getElem?_range hi]
    rfl

/-- Witness of C15 (amended) at `dim = 2`, start 5, after 3 draws. -/
theorem halton_state_invariant_witness :
    halton.ctor detail.prime 2 5 =
      Except.ok { m_dim := 2, m_counter := 5,
                  m_vdc := [{ m_base := 2, m_counter := 0 }, { m_base := 3, m_counter := 0 }] } ∧
    ∃ pts h1 q h2,
      halton.draws 3
        { m_dim := 2, m_counter := 5,
          m_vdc := [{ m_base := 2, m_counter := 0 }, { m_base := 3, m_counter := 0 }] } =
        some (pts, h1) ∧ h1.call = some (q, h2) ∧
      h1.m_dim = 2 ∧ h1.m_vdc.length = 2 ∧ h2.m_dim = 2 ∧ h2.m_vdc.length = 2 ∧
      h2.m_counter = (h1.m_counter + 1) % UINT_MOD ∧
      ∀ i < 2, ∃ p g1 g2, detail.prime (i + 1) = Except.ok p ∧
        h1.m_vdc[i]? = some g1 ∧ h2.m_vdc[i]? = some g2 ∧
        g1.m_base = p ∧ g2.m_base = p ∧
        g1.m_counter = 3 % UINT_MOD ∧ g2.m_counter = (g1.m_counter + 1) % UINT_MOD :=
  ⟨halton_ctor_detail_prime_two 5,
    halton_state_invariant detail.prime 2 5 _ (halton_ctor_detail_prime_two 5) 3⟩

/-- C16: for every base `b ≥ 2` and counter `n`, with `L` the number of base-`b` digits of
`n` (`0` for `n = 0`), the loop of `operator()` runs its body exactly `L` times: the guard
`i > 0` holds before each of the first `L` iterations and fails after the `L`-th, so the
loop exits with `L` iterations of fuel and not with fewer; each iteration strictly
decreases `i`; and `operator()` returns. -/
theorem vdc_loop_iterations (b n : Nat) (hb : 2 ≤ b) :
    (∀ j, j < (Nat.digits b n).length →
      0 < ((vdc_body b)^[j] { retval := 0, f := 1 / (b : ℚ), i := n }).i) ∧
    ((vdc_body b)^[(Nat.digits b n).length] { retval := 0, f := 1 / (b : ℚ), i := n }).i = 0 ∧
    (∀ fuel, (Nat.digits b n).length ≤ fuel →
      vdc_while b fuel { retval := 0, f := 1 / (b : ℚ), i := n } =
        some ((vdc_body b)^[(Nat.digits b n).length]
          { retval := 0, f := 1 / (b : ℚ), i := n })) ∧
    (∀ fuel, fuel < (Nat.digits b n).length →
      vdc_while b fuel { retval := 0, f := 1 / (b : ℚ), i := n } = none) ∧
    (∀ l : vdc_locals, 0 < l.i → (vdc_body b l).i < l.i) ∧
    (Nat.digits b 0).length = 0 ∧
    (van_der_corput.call { m_base := b, m_counter := n }).isSome = true := by
  refine ⟨fun j hj => vdc_iterate_guard b hb j _ hj, vdc_iterate_exit b hb _ _ rfl, ?_, ?_, ?_,
    by simp, ?_⟩
  · intro fuel hle
    rw [vdc_while_iterate b hb, if_pos hle]
  · intro fuel hlt
    rw [vdc_while_iterate b hb, if_neg (by simpa using hlt)]
  · intro l hl
    rw [vdc_body_i]
    exact Nat.div_lt_self hl (by omega)
  · rw [call_radical_inverse b n hb]
    rfl

/-- Witness of C16 at base 10, counter 123 (three digits). -/
theorem vdc_loop_iterations_witness :
    2 ≤ 10 ∧ (Nat.digits 10 123).length = 3 ∧
    vdc_while 10 3 { retval := 0, f := 1 / ((10 : Nat) : ℚ), i := 123 } =
      some ((vdc_body 10)^[(Nat.digits 10 123).length]
        { retval := 0, f := 1 / ((10 : Nat) : ℚ), i := 123 }) ∧
    vdc_while 10 2 { retval := 0, f := 1 / ((10 : Nat) : ℚ), i := 123 } = none :=
  ⟨by decide, by norm_num,
    (vdc_loop_iterations 10 123 (by decide)).2.2.1 3 (by norm_num),
    (vdc_loop_iterations 10 123 (by decide)).2.2.2.1 2 (by norm_num)⟩

/-- C17: whatever the prime source does, `halton(0, n)` is constructed, with no sub-generator,
and any number of draws returns that many empty points. -/
theorem halton_dim_zero (prime : Nat → Except Error Nat) (n k : Nat) :
    halton.ctor prime 0 n = Except.ok { m_dim := 0, m_counter := n, m_vdc := [] } ∧
    (halton.draws k { m_dim := 0, m_counter := n, m_vdc := [] }).map Prod.fst =
      some (List.replicate k []) := by
  refine ⟨by simp [halton.ctor, halton.ctor_for], ?_⟩
  induction k generalizing n with
  | zero => simp [halton.draws]
  | succ k ih =>
    have := ih ((n + 1) % UINT_MOD)
    cases hd : halton.draws k { m_dim := 0, m_counter := (n + 1) % UINT_MOD, m_vdc := [] } with
    | none => simp [hd] at this
    | some r =>
      rw [hd] at this
      simp only [Option.map_some', Option.some.injEq] at this
      simp [halton.draws, halton.call, halton.call_for, hd, this, List.replicate_succ]

/-- C18 (as stated) fails once `b ^ k` exceeds `2^32`: among the first `2^33` draws of
`van_der_corput(2, 0)`, the draws at positions `0` and `2^32` are both `0`. -/
theorem van_der_corput_draws_repeat :
    2 ≤ 2 ∧
    (van_der_corput.draws (2 ^ 33) { m_base := 2, m_counter := 0 }).map
      (fun r => (r.1[0]?, r.1[2 ^ 32]?)) = some (some 0, some 0) ∧
    (0 : Nat) ≠ 2 ^ 32 ∧ 2 ^ 32 < 2 ^ 33 :=
  ⟨le_refl 2, vdc_draws_repeat, by norm_num, by norm_num⟩

/-- C18 (amended): for every base `b ≥ 2` and every `k` with `b ^ k ≤ 2^32`, the first
`b ^ k` draws of `van_der_corput(b, 0)` are pairwise distinct and are exactly the
numbers `j / b ^ k`, `0 ≤ j < b ^ k`; and the value `g_n` drawn at counter `n` is an
injective function of `n` over all natural numbers. -/
theorem van_der_corput_draws_distinct (b k : Nat) (hb : 2 ≤ b) (hk : b ^ k ≤ UINT_MOD) :
    (∃ xs s, van_der_corput.draws (b ^ k) { m_base := b, m_counter := 0 } = some (xs, s) ∧
      xs.length = b ^ k ∧ xs.Nodup ∧
      ∀ x : ℚ, x ∈ xs ↔ ∃ j : Nat, j < b ^ k ∧ x = (j : ℚ) / ((b ^ k : Nat) : ℚ)) ∧
    (∀ n m x s1 s2, van_der_corput.call { m_base := b, m_counter := n } = some (x, s1) →
      van_der_corput.call { m_base := b, m_counter := m } = some (x, s2) → n = m) ∧
    Function.Injective (radical_inverse b) := by
  refine ⟨⟨_, _, vdc_first_draws b hb (b ^ k) hk, by simp, ?_, ?_⟩, ?_, ?_⟩
  · apply List.Nodup.map_on _ (List.nodup_range _)
    intro n _ m _ h
    exact radical_inverse_injective b hb n m h
  · intro x
    rw [← radical_inverse_mem_iff b hb k x]
    simp only [List.mem_map, List.mem_range]
  · intro n m x s1 s2 h1 h2
    rw [call_radical_inverse b n hb] at h1
    rw [call_radical_inverse b m hb] at h2
    have e1 := (Prod.mk.inj (Option.some.inj h1)).1
    have e2 := (Prod.mk.inj (Option.some.inj h2)).1
    exact radical_inverse_injective b hb n m (e1.trans e2.symm)
  · intro n m h
    exact radical_inverse_injective b hb n m h

/-- Witness of C18 (amended) at base 3, `k = 2`. -/
theorem van_der_corput_draws_distinct_witness :
    2 ≤ 3 ∧ 3 ^ 2 ≤ UINT_MOD ∧
    ((∃ xs s, van_der_corput.draws (3 ^ 2) { m_base := 3, m_counter := 0 } = some (xs, s) ∧
      xs.length = 3 ^ 2 ∧ xs.Nodup ∧
      ∀ x : ℚ, x ∈ xs ↔ ∃ j : Nat, j < 3 ^ 2 ∧ x = (j : ℚ) / ((3 ^ 2 : Nat) : ℚ)) ∧
    (∀ n m x s1 s2, van_der_corput.call { m_base := 3, m_counter := n } = some (x, s1) →
      van_der_corput.call { m_base := 3, m_counter := m } = some (x, s2) → n = m) ∧
    Function.Injective (radical_inverse 3)) :=
  ⟨by decide, by decide,
    van_der_corput_draws_distinct 3 2 (by decide) (by decide)⟩

end pagmo
